import Mathlib

/-!
Shallow embedding of the xmidt-org/medley consistent-hash library.

Conventions of the embedding:
* Go byte slices are `List Nat` (each element a byte value).
* A 64-bit hash algorithm is modeled one-shot as a function from the byte
  sequence written since the last `Reset` to the digest; this is the
  observable behavior of any deterministic `hash.Hash64`.  No arithmetic is
  performed on digests, so they are plain `Nat`s.
* Go maps are modeled as insertion-ordered association lists whose keys are
  kept distinct by the operations; map iteration is modeled as iteration in
  insertion order (Go randomizes iteration order, so theorems that depend on
  iteration order describe one possible execution).
* `sort.Sort` is modeled by `List.insertionSort` with the non-strict
  complement of the Go `Less`.  For the `hashEntry` ring the order is total
  on entries, so every correct sort produces the same list; for small inputs
  (and the concrete inputs used here) Go's `sort.Sort` is exactly an
  insertion sort, which is stable, matching `List.insertionSort`.
* `medley.Node` is a Go string; Go string order is byte-lexicographic, which
  agrees with Lean's `String` order on the ASCII strings used here.
-/

namespace Medley

/-- Bytes of a Go string (`io.WriteString` writes the raw UTF-8 bytes). -/
def strBytes (s : String) : List Nat :=
  s.toUTF8.data.toList.map (fun b => b.toNat)

/-- `strconv.AppendInt(buf, i, 10)` for a nonnegative index: the decimal
ASCII representation. -/
def decimalBytes (i : Nat) : List Nat :=
  strBytes (toString i)

/-- The single separator byte `'='` written between the vnode index and the
node bytes. -/
def eqByte : Nat := 61

/-- `medley.Node` is a string type. -/
abbrev Node := String

/-- The error values observable from lookups: `medley.ErrNoServices` and
`consistent.ErrEmpty`. -/
inductive MErr where
  | errNoServices : MErr
  | errEmpty : MErr
deriving DecidableEq, Repr

/-- Equality of lookup results is decidable (used to evaluate the model on
concrete inputs). -/
def exceptDecEq {ε α : Type} [DecidableEq ε] [DecidableEq α] :
    DecidableEq (Except ε α)
  | Except.ok a, Except.ok b =>
      if h : a = b then isTrue (by rw [h])
      else isFalse (by intro hc; cases hc; exact h rfl)
  | Except.ok _, Except.error _ => isFalse (by intro hc; cases hc)
  | Except.error _, Except.ok _ => isFalse (by intro hc; cases hc)
  | Except.error e, Except.error f =>
      if h : e = f then isTrue (by rw [h])
      else isFalse (by intro hc; cases hc; exact h rfl)

instance {ε α : Type} [DecidableEq ε] [DecidableEq α] :
    DecidableEq (Except ε α) := exceptDecEq

/-! ### sort.Search

The Go standard library binary search: smallest index in `[0, n)` at which
`f` is true, assuming `f` is false then true; `n` if `f` is always false. -/

/-- The loop of Go's `sort.Search`:
`for i < j { h := (i+j)/2; if !f(h) { i = h+1 } else { j = h } }`.
The interval `j - i` shrinks every iteration, so running the loop with
`fuel ≥ j - i` is exact; the wrapper supplies exactly that. -/
def searchLoop (f : Nat → Bool) : Nat → Nat → Nat → Nat
  | 0, i, _ => i
  | fuel + 1, i, j =>
      if i < j then
        let m := (i + j) / 2
        if f m then searchLoop f fuel i m else searchLoop f fuel (m + 1) j
      else
        i

/-- `sort.Search(n, f)`. -/
def sortSearch (n : Nat) (f : Nat → Bool) : Nat :=
  searchLoop f n 0 n

/-! ### Go string comparison

Go compares strings byte-lexicographically; `bytesLtB` is that comparison on
byte lists and `bytesLeB` its non-strict counterpart. -/

/-- Strict byte-lexicographic comparison (the Go `<` on strings). -/
def bytesLtB : List Nat → List Nat → Bool
  | [], [] => false
  | [], _ :: _ => true
  | _ :: _, [] => false
  | a :: as, b :: bs =>
      if a < b then true else if b < a then false else bytesLtB as bs

/-- Non-strict byte-lexicographic comparison. -/
def bytesLeB : List Nat → List Nat → Bool
  | [], _ => true
  | _ :: _, [] => false
  | a :: as, b :: bs =>
      if a < b then true else if b < a then false else bytesLeB as bs

theorem bytesLtB_eq_not_leB : ∀ x y : List Nat, bytesLtB x y = !bytesLeB y x
  | [], [] => rfl
  | [], _ :: _ => rfl
  | _ :: _, [] => rfl
  | a :: as, b :: bs => by
      simp only [bytesLtB, bytesLeB]
      rcases Nat.lt_trichotomy a b with h | h | h
      · simp [h, Nat.not_lt.mpr (Nat.le_of_lt h)]
      · simp [h, Nat.lt_irrefl, bytesLtB_eq_not_leB as bs]
      · simp [h, Nat.not_lt.mpr (Nat.le_of_lt h)]

theorem bytesLeB_total : ∀ x y : List Nat, bytesLeB x y = true ∨ bytesLeB y x = true
  | [], _ => Or.inl rfl
  | _ :: _, [] => Or.inr rfl
  | a :: as, b :: bs => by
      simp only [bytesLeB]
      rcases Nat.lt_trichotomy a b with h | h | h
      · simp [h, Nat.not_lt.mpr (Nat.le_of_lt h)]
      · simp [h, Nat.lt_irrefl, bytesLeB_total as bs]
      · simp [h, Nat.not_lt.mpr (Nat.le_of_lt h)]

theorem bytesLeB_trans : ∀ x y z : List Nat,
    bytesLeB x y = true → bytesLeB y z = true → bytesLeB x z = true
  | [], _, _, _, _ => rfl
  | _ :: _, [], _, hxy, _ => by simp [bytesLeB] at hxy
  | _ :: _, _ :: _, [], _, hyz => by simp [bytesLeB] at hyz
  | a :: as, b :: bs, c :: cs, hxy, hyz => by
      simp only [bytesLeB] at *
      rcases Nat.lt_trichotomy b c with hbc | hbc | hbc
      · rcases Nat.lt_trichotomy a b with hab | hab | hab
        · have hac : a < c := hab.trans hbc
          simp [hac]
        · subst hab
          simp [hbc]
        · simp [Nat.not_lt.mpr (Nat.le_of_lt hab), hab] at hxy
      · subst hbc
        rcases Nat.lt_trichotomy a b with hab | hab | hab
        · simp [hab]
        · subst hab
          simp only [Nat.lt_irrefl, if_false] at hxy hyz ⊢
          exact bytesLeB_trans as bs cs hxy hyz
        · simp [Nat.not_lt.mpr (Nat.le_of_lt hab), hab] at hxy
      · simp [Nat.not_lt.mpr (Nat.le_of_lt hbc), hbc] at hyz

/-- Go `x < y` on nodes (strings): byte-lexicographic. -/
def nodeLt (x y : Node) : Prop :=
  bytesLtB (strBytes x) (strBytes y) = true

/-- Non-strict Go ordering on nodes. -/
def nodeLE (x y : Node) : Prop :=
  bytesLeB (strBytes x) (strBytes y) = true

instance : DecidableRel nodeLt := fun x y => by
  unfold nodeLt; infer_instance

instance : DecidableRel nodeLE := fun x y => by
  unfold nodeLE; infer_instance

theorem nodeLE_iff_not_lt (x y : Node) : nodeLE x y ↔ ¬nodeLt y x := by
  unfold nodeLE nodeLt
  rw [bytesLtB_eq_not_leB]
  cases bytesLeB (strBytes x) (strBytes y) <;> simp

/-! ### The hashEntry ring (`consistent.ring`, used by `consistent.Hash`) -/

/-- `consistent.hashEntry`: a node together with its hash value. -/
structure HashEntry where
  node : Node
  value : Nat
deriving DecidableEq, Repr

/-- The Go zero value `hashEntry{}`. -/
instance : Inhabited HashEntry := ⟨⟨"", 0⟩⟩

/-- `ring.Less`: compare hash values first, then nodes on a collision. -/
def hashEntryLess (x y : HashEntry) : Prop :=
  x.value < y.value ∨ (x.value = y.value ∧ nodeLt x.node y.node)

instance : DecidableRel hashEntryLess := fun x y => by
  unfold hashEntryLess; infer_instance

/-- The non-strict order induced by `ring.Less`; `sort.Sort` produces a
permutation that is weakly increasing for this relation. -/
def hashEntryLE (x y : HashEntry) : Prop :=
  x.value < y.value ∨ (x.value = y.value ∧ nodeLE x.node y.node)

instance : DecidableRel hashEntryLE := fun x y => by
  unfold hashEntryLE; infer_instance

instance : IsTotal HashEntry hashEntryLE where
  total x y := by
    unfold hashEntryLE
    rcases Nat.lt_trichotomy x.value y.value with h | h | h
    · exact Or.inl (Or.inl h)
    · rcases bytesLeB_total (strBytes x.node) (strBytes y.node) with h' | h'
      · exact Or.inl (Or.inr ⟨h, h'⟩)
      · exact Or.inr (Or.inr ⟨h.symm, h'⟩)
    · exact Or.inr (Or.inl h)

instance : IsTrans HashEntry hashEntryLE where
  trans x y z hxy hyz := by
    unfold hashEntryLE at *
    rcases hxy with h1 | ⟨e1, n1⟩ <;> rcases hyz with h2 | ⟨e2, n2⟩
    · exact Or.inl (h1.trans h2)
    · exact Or.inl (e2 ▸ h1)
    · exact Or.inl (e1 ▸ h2)
    · exact Or.inr ⟨e1.trans e2, bytesLeB_trans _ _ _ n1 n2⟩

/-- `hashEntryLE` is exactly the complement of the flipped `ring.Less`,
so sorting by it models `sort.Sort` with `ring.Less`. -/
theorem hashEntryLE_iff_not_less (x y : HashEntry) :
    hashEntryLE x y ↔ ¬hashEntryLess y x := by
  unfold hashEntryLE hashEntryLess
  constructor
  · rintro (h | ⟨e, hn⟩) (h' | ⟨e', hn'⟩)
    · exact absurd (h.trans h') (lt_irrefl _)
    · exact absurd h (by omega)
    · exact absurd h' (by omega)
    · exact (nodeLE_iff_not_lt _ _).mp hn hn'
  · intro h
    rcases Nat.lt_trichotomy x.value y.value with hv | hv | hv
    · exact Or.inl hv
    · refine Or.inr ⟨hv, ?_⟩
      rw [nodeLE_iff_not_lt]
      intro hc
      exact h (Or.inr ⟨hv.symm, hc⟩)
    · exact absurd (Or.inl hv) h

/-- `ring.sort()`: restore the `(value, node)` order. -/
def ringSort (r : List HashEntry) : List HashEntry :=
  List.insertionSort hashEntryLE r

/-- `ring.add(n, v)`: append one hash entry without re-sorting. -/
def ringAdd (r : List HashEntry) (n : Node) (v : Nat) : List HashEntry :=
  r ++ [⟨n, v⟩]

/-- `ring.closest(v)`: binary-search for the first entry with value `≥ v`,
wrapping around to index 0; `ErrEmpty` on an empty ring. -/
def ringClosest (r : List HashEntry) (v : Nat) : Except MErr Node :=
  if 0 < r.length then
    let p := sortSearch r.length (fun i => v ≤ (r.getD i default).value)
    if p < r.length then
      Except.ok (r.getD p default).node
    else
      Except.ok (r.getD 0 default).node
  else
    Except.error MErr.errEmpty

/-- Swap two positions of a list (Go slice element swap). -/
def listSwap {α : Type} [Inhabited α] (l : List α) (i j : Nat) : List α :=
  (l.set i (l.getD j default)).set j (l.getD i default)

/-- The loop of `ring.removeIf`: two-pointer partition moving matching
entries to the tail (`ep` is one past the Go `end` index).  Each swapped-out
slot is overwritten with the zero entry, as in the source. -/
def removeIfLoop (p : Node → Bool) : Nat → List HashEntry → Nat → Nat →
    List HashEntry × Nat
  | 0, arr, pos, _ => (arr, pos)
  | fuel + 1, arr, pos, ep =>
      if pos < ep then
        if p (arr.getD pos default).node then
          removeIfLoop p fuel ((listSwap arr pos (ep - 1)).set (ep - 1) default)
            pos (ep - 1)
        else
          removeIfLoop p fuel arr (pos + 1) ep
      else
        (arr, pos)

/-- `ring.removeIf(p)`: delete all entries whose node matches `p`,
leaving the ring unsorted. -/
def ringRemoveIf (r : List HashEntry) (p : Node → Bool) : List HashEntry :=
  let res := removeIfLoop p r.length r 0 r.length
  res.1.take res.2

/-! ### The assigner (`consistent.assigner`) -/

/-- `consistent.assigner` state: the node's buffered bytes and the running
index.  (The index is an `int64` in Go but is only ever incremented from 0.) -/
structure Assigner where
  node : List Nat
  index : Nat
deriving Repr

/-- `assigner.reset(n)`: start a new sequence of hash values for node `n`. -/
def Assigner.reset (n : Node) : Assigner :=
  { node := strBytes n, index := 0 }

/-- `assigner.next()`: digest of `"<decimal-index>=" ++ node bytes`, then
increment the index. -/
def Assigner.next (alg : List Nat → Nat) (a : Assigner) : Nat × Assigner :=
  (alg (decimalBytes a.index ++ [eqByte] ++ a.node),
    { a with index := a.index + 1 })

/-- The token-generation loop of `Hash.Add`/`Hash.Rehash`:
`for r := 0; r < vnodes; r++ { ring.add(n, assigner.next()) }`,
with `fuel` the remaining iteration count. -/
def hashTokensLoop (alg : List Nat → Nat) (a : Assigner) (n : Node)
    (r : List HashEntry) : Nat → List HashEntry × Assigner
  | 0 => (r, a)
  | fuel + 1 =>
      let step := a.next alg
      hashTokensLoop alg step.2 n (ringAdd r n step.1) fuel

/-- Append all `vnodes` tokens of node `n` to the ring: `assigner.reset(n)`
followed by the `Hash.Add` inner loop. -/
def hashAddNode (alg : List Nat → Nat) (vnodes : Nat) (r : List HashEntry)
    (n : Node) : List HashEntry :=
  (hashTokensLoop alg (Assigner.reset n) n r vnodes).1

/-! ### NodeSet (`medley.NodeSet`)

A Go `map[Node]bool`, modeled as an insertion-ordered duplicate-free list. -/

/-- `NodeSet.Has`. -/
def nsHas (ns : List Node) (n : Node) : Bool :=
  ns.contains n

/-- `NodeSet.Add`: insert one node, reporting whether it was new. -/
def nsAdd (ns : List Node) (n : Node) : List Node × Bool :=
  if ns.contains n then (ns, false) else (ns ++ [n], true)

/-- `NodeSet.AddAll`: insert several nodes, counting those actually added. -/
def nsAddAll (ns : List Node) (l : List Node) : List Node × Nat :=
  l.foldl
    (fun acc n =>
      let step := nsAdd acc.1 n
      (step.1, acc.2 + (if step.2 then 1 else 0)))
    (ns, 0)

/-- `NodeSet.RemoveAll`: delete several nodes, counting those actually
deleted. -/
def nsRemoveAll (ns : List Node) (l : List Node) : List Node × Nat :=
  l.foldl
    (fun acc n =>
      if acc.1.contains n then (acc.1.erase n, acc.2 + 1) else acc)
    (ns, 0)

/-- `NewNodeSet(nodes...)`. -/
def newNodeSet (l : List Node) : List Node :=
  (nsAddAll [] l).1

/-- The loop of `NodeSet.Filter`: two-pointer in-place partition.  `jp` is
one past the Go `j` index, so the Go loop guard `i <= j` is `i < jp`. -/
def filterLoop (ns : List Node) : Nat → List Node → Nat → Nat →
    List Node × Nat
  | 0, arr, i, _ => (arr, i)
  | fuel + 1, arr, i, jp =>
      if i < jp then
        if nsHas ns (arr.getD i default) then
          filterLoop ns fuel arr (i + 1) jp
        else
          filterLoop ns fuel (listSwap arr i (jp - 1)) i (jp - 1)
      else
        (arr, i)

/-- `NodeSet.Filter`: rearrange `arr` so that members of `ns` come first;
returns the rearranged slice and the split point (the Go result subslices
are `arr[0:i]` and `arr[i:]`). -/
def nsFilter (ns : List Node) (arr : List Node) : List Node × Nat :=
  filterLoop ns arr.length arr 0 arr.length

/-! ### consistent.Hash -/

/-- `consistent.Hash`: algorithm, vnode count, node set and ring storage.
The assigner field carries no observable state across operations (every use
begins with `reset`), so it is not part of the model state. -/
structure Hash where
  alg : List Nat → Nat
  vnodes : Nat
  nodes : List Node
  ring : List HashEntry

/-- `Hash.Len()`: the count of nodes. -/
def Hash.len (h : Hash) : Nat :=
  h.nodes.length

/-- `Hash.Get(k)`: hash the key and walk the ring clockwise; `ErrEmpty` on
an empty ring.  (Writing a byte key to a `hash.Hash64` never fails.) -/
def Hash.get (h : Hash) (k : List Nat) : Except MErr Node :=
  if 0 < h.ring.length then
    ringClosest h.ring (h.alg k)
  else
    Except.error MErr.errEmpty

/-- `Hash.Add(nodes)`: partition the input against the node set, append
`vnodes` tokens for every entry of the not-present part, re-sort.  Returns
the updated hash, the rearranged input slice, and the `added` count. -/
def Hash.add (h : Hash) (l : List Node) : Hash × List Node × Nat :=
  let part := nsFilter h.nodes l
  let notIn := part.1.drop part.2
  let added := notIn.length
  if added = 0 then
    (h, part.1, 0)
  else
    let ring' := notIn.foldl (fun r n => hashAddNode h.alg h.vnodes r n) h.ring
    let nodes' := (nsAddAll h.nodes notIn).1
    ({ h with nodes := nodes', ring := ringSort ring' }, part.1, added)

/-- `Hash.Remove(nodes)`: partition the input against the node set, delete
the present part from the node set and the ring, re-sort.  Returns the
updated hash, the rearranged input slice, and the `removed` count. -/
def Hash.remove (h : Hash) (l : List Node) : Hash × List Node × Nat :=
  let part := nsFilter h.nodes l
  let inPart := part.1.take part.2
  let removed := inPart.length
  if removed = 0 then
    (h, part.1, 0)
  else
    let toRemove := newNodeSet inPart
    let nodes' := (nsRemoveAll h.nodes inPart).1
    let ring' := ringSort (ringRemoveIf h.ring (fun n => nsHas toRemove n))
    ({ h with nodes := nodes', ring := ring' }, part.1, removed)

/-- `Hash.Rehash(nodes)`: make the given nodes the only members.  Returns
the updated hash and the `(added, removed)` counts. -/
def Hash.rehash (h : Hash) (l : List Node) : Hash × Nat × Nat :=
  let rehash := newNodeSet l
  let toRemove := h.nodes.filter (fun n => !(nsHas rehash n))
  let toAdd := rehash.filter (fun n => !(nsHas h.nodes n))
  let added := toAdd.length
  let removed := toRemove.length
  if removed = 0 ∧ added = 0 then
    (h, 0, 0)
  else
    let afterRemove :=
      if 0 < removed then ringRemoveIf h.ring (fun n => nsHas toRemove n) else h.ring
    let afterAdd :=
      if 0 < added then
        toAdd.foldl (fun r n => hashAddNode h.alg h.vnodes r n) afterRemove
      else
        afterRemove
    ({ h with nodes := rehash, ring := ringSort afterAdd }, added, removed)

/-! ### The generic immutable Ring (`consistent.Ring[S]`, `consistent.Builder[S]`)

The service type `S` is any comparable type (`medley.Service`); Go declares
zero values of `S`, modeled by `Inhabited`. -/

/-- `consistent.node[S]`: one hash ring point for a service. -/
structure RNode (S : Type) where
  token : Nat
  service : S
deriving DecidableEq, Repr

instance {S : Type} [Inhabited S] : Inhabited (RNode S) := ⟨⟨0, default⟩⟩

/-- `nodes.Less`: ring nodes are compared by token only. -/
def rnodeLess {S : Type} (x y : RNode S) : Prop :=
  x.token < y.token

/-- The non-strict order induced by `nodes.Less`. -/
def rnodeLE {S : Type} (x y : RNode S) : Prop :=
  x.token ≤ y.token

instance {S : Type} : DecidableRel (α := RNode S) rnodeLE := fun x y => by
  unfold rnodeLE; infer_instance

instance {S : Type} : IsTotal (RNode S) rnodeLE where
  total x y := Nat.le_total x.token y.token

instance {S : Type} : IsTrans (RNode S) rnodeLE where
  trans _ _ _ hxy hyz := Nat.le_trans hxy hyz

/-- `sort.Sort` on the generic ring storage. -/
def nodesSort {S : Type} (l : List (RNode S)) : List (RNode S) :=
  List.insertionSort rnodeLE l

/-- `consistent.hasher[S]`: vnode count, algorithm, and service serializer.
`serviceHasher` yields the bytes the Go `ServiceHasher` writes to the
buffer (writes to `bytes.Buffer` never fail). -/
structure Hasher (S : Type) where
  vnodes : Nat
  alg : List Nat → Nat
  serviceHasher : S → List Nat

/-- `hasher.sum64`: one-shot hash of a raw object. -/
def Hasher.sum64 {S : Type} (h : Hasher S) (object : List Nat) : Nat :=
  h.alg object

/-- `hasher.ringSize`. -/
def Hasher.ringSize {S : Type} (h : Hasher S) (serviceCount : Nat) : Nat :=
  h.vnodes * serviceCount

/-- `hasher.base`: the service's serialized bytes. -/
def Hasher.base {S : Type} (h : Hasher S) (svc : S) : List Nat :=
  h.serviceHasher svc

/-- The loop of `hasher.serviceNodes`: for each increment, hash
`"<decimal-increment>=" ++ base` and append the resulting ring node. -/
def serviceNodesLoop {S : Type} (alg : List Nat → Nat) (svc : S)
    (base : List Nat) (increment : Nat) (acc : List (RNode S)) :
    Nat → List (RNode S)
  | 0 => acc
  | fuel + 1 =>
      serviceNodesLoop alg svc base (increment + 1)
        (acc ++ [⟨alg (decimalBytes increment ++ [eqByte] ++ base), svc⟩]) fuel

/-- `hasher.serviceNodes(svc)`: all ring nodes of one service. -/
def Hasher.serviceNodes {S : Type} (h : Hasher S) (svc : S) : List (RNode S) :=
  serviceNodesLoop h.alg svc (h.base svc) 0 [] h.vnodes

/-! #### medley.Map as an insertion-ordered association list -/

/-- `Map.Len()`: the Go map key count (the operations keep keys distinct). -/
def mapLen {S V : Type} (m : List (S × V)) : Nat :=
  m.length

/-- Go map lookup `m[svc]`. -/
def mapGet? {S V : Type} [DecidableEq S] (m : List (S × V)) (k : S) : Option V :=
  (m.find? (fun e => e.1 = k)).map (fun e => e.2)

/-- Go map assignment `m[k] = v`: replace the existing binding or append. -/
def mapInsert {S V : Type} [DecidableEq S] (m : List (S × V)) (k : S) (v : V) :
    List (S × V) :=
  if (m.find? (fun e => e.1 = k)).isSome then
    m.map (fun e => if e.1 = k then (k, v) else e)
  else
    m ++ [(k, v)]

/-- `consistent.Ring[S]`: hash configuration, the per-service token cache,
and the ring storage. -/
structure Ring (S : Type) where
  hasher : Hasher S
  cache : List (S × List (RNode S))
  nodes : List (RNode S)

/-- `Ring.nearest(target)`: `sort.Search` for the first node with token
`≥ target`, wrapping to index 0. -/
def Ring.nearest {S : Type} [Inhabited S] (r : Ring S) (target : Nat) : RNode S :=
  let i := sortSearch r.nodes.length
    (fun p => target ≤ (r.nodes.getD p default).token)
  if i < r.nodes.length then
    r.nodes.getD i default
  else
    r.nodes.getD 0 default

/-- `Ring.Find(object)`: hash the object and return the nearest node's
service; `medley.ErrNoServices` on an empty ring. -/
def Ring.find {S : Type} [Inhabited S] (r : Ring S) (object : List Nat) :
    Except MErr S :=
  if 0 < r.nodes.length then
    Except.ok (r.nearest (r.hasher.sum64 object)).service
  else
    Except.error MErr.errNoServices

/-- One step of the loop body of `consistent.Update`: the fold state is
`(cache, nodes, newCount, existingCount)` and `Map.Update` yields the
services of the update slice in order, each with its current cache entry. -/
def updateStep {S : Type} [DecidableEq S] (current : Ring S)
    (st : List (S × List (RNode S)) × List (RNode S) × Nat × Nat) (svc : S) :
    List (S × List (RNode S)) × List (RNode S) × Nat × Nat :=
  match mapGet? current.cache svc with
  | some v =>
      (mapInsert st.1 svc v, st.2.1 ++ v, st.2.2.1, st.2.2.2 + 1)
  | none =>
      let snodes := current.hasher.serviceNodes svc
      (mapInsert st.1 svc snodes, st.2.1 ++ snodes, st.2.2.1 + 1, st.2.2.2)

/-- `consistent.Update(current, services...)`: rebuild the ring from the
update slice, reusing cached tokens; returns the (possibly identical) ring
and whether an update was necessary. -/
def ringUpdate {S : Type} [DecidableEq S] (current : Ring S)
    (services : List S) : Ring S × Bool :=
  let st := services.foldl (updateStep current) ([], [], 0, 0)
  let newCount := st.2.2.1
  let existingCount := st.2.2.2
  if newCount > 0 ∨ existingCount ≠ mapLen current.cache then
    ({ hasher := current.hasher, cache := st.1, nodes := nodesSort st.2.1 }, true)
  else
    (current, false)

/-- `consistent.Builder[S]`: accumulated hash configuration and the
candidate service set (a `medley.Map[S, bool]`, modeled as an
insertion-ordered duplicate-free list). -/
structure Builder (S : Type) where
  hasher : Hasher S
  services : List S

/-- `Builder.Services(services...)`: cumulative, duplicate-ignoring
insertion into the candidate set. -/
def Builder.addServices {S : Type} [DecidableEq S] (b : Builder S)
    (services : List S) : Builder S :=
  { b with
    services :=
      services.foldl
        (fun acc svc => if svc ∈ acc then acc else acc ++ [svc])
        b.services }

/-- `DefaultVNodes` of the generic builder. -/
def defaultVNodes : Nat := 200

/-- `Builder.newHasher()`: enforce the vnode default.  (The algorithm and
service-hasher defaults resolve to external collaborators — murmur3 and
`fmt`-based serialization — which are outside the model; a modeled builder
carries its algorithm and serializer explicitly.) -/
def Builder.newHasher {S : Type} (b : Builder S) : Hasher S :=
  if b.hasher.vnodes < 1 then
    { b.hasher with vnodes := defaultVNodes }
  else
    b.hasher

/-- `Builder.Build()`: hash every accumulated service, cache its tokens,
sort the assembled storage, and reset the builder's service set. -/
def Builder.build {S : Type} [DecidableEq S] (b : Builder S) :
    Ring S × Builder S :=
  let hasher := b.newHasher
  let st := b.services.foldl
    (fun (acc : List (S × List (RNode S)) × List (RNode S)) svc =>
      let snodes := hasher.serviceNodes svc
      (mapInsert acc.1 svc snodes, acc.2 ++ snodes))
    ([], [])
  ({ hasher := hasher, cache := st.1, nodes := nodesSort st.2 },
    { b with services := [] })

/-! ### Well-formedness of reachable states

Built rings and hashes keep their membership structures consistent: every
stored point is owned by a cached/member service, and the storage is empty
exactly when the membership is empty (every member contributes
`vnodes ≥ 1` points). -/

/-- Reachable-state invariant of a `Ring`: every ring node's service is a
cached service, and the cache is empty exactly when the storage is. -/
abbrev Ring.wf {S : Type} [DecidableEq S] (r : Ring S) : Prop :=
  (∀ nd ∈ r.nodes, nd.service ∈ r.cache.map Prod.fst) ∧
    (r.cache = [] ↔ r.nodes = [])

/-- Reachable-state invariant of a `Hash`: every ring entry's node is a
member, and the node set is empty exactly when the ring is. -/
abbrev Hash.wf (h : Hash) : Prop :=
  (∀ e ∈ h.ring, e.node ∈ h.nodes) ∧ (h.nodes = [] ↔ h.ring = [])

/-! ### Concrete fixtures used to evaluate the model -/

/-- A degenerate algorithm mapping everything to 0 (hash collisions
everywhere); a legal `medley.Algorithm`. -/
def zeroAlg : List Nat → Nat := fun _ => 0

/-- A small executable algorithm: the sum of the input bytes. -/
def sumAlg : List Nat → Nat := fun l => l.foldl (· + ·) 0

/-- A ring over one string service, built through the builder pipeline. -/
def demoRing : Ring String :=
  ((Builder.mk ⟨1, sumAlg, strBytes⟩ []).addServices ["a"]).build.1

/-- A hash holding one node, built through `Add`. -/
def demoHash : Hash :=
  ((⟨sumAlg, 1, [], []⟩ : Hash).add ["a"]).1

/-- An empty ring whose algorithm collides everything. -/
def collideRing0 : Ring String := ⟨⟨1, zeroAlg, strBytes⟩, [], []⟩

/-- A freshly constructed hash (the state `New` returns, with vnodes 1). -/
def dupHash : Hash := ⟨zeroAlg, 1, [], []⟩

/-! ## Helper lemmas -/

theorem getD_of_lt {α : Type} [Inhabited α] (l : List α) (n : Nat)
    (h : n < l.length) : l.getD n default = l[n] := by
  simp [List.getD_eq_getElem?_getD, List.getElem?_eq_getElem h]

theorem getD_mem {α : Type} [Inhabited α] (l : List α) (n : Nat)
    (h : n < l.length) : l.getD n default ∈ l := by
  rw [getD_of_lt l n h]
  exact List.getElem_mem h

/-- Full characterization of the `sort.Search` loop: with a monotone
predicate and correct bracketing invariants, the loop lands exactly on the
false/true boundary. -/
theorem searchLoop_spec (f : Nat → Bool) (n : Nat)
    (hmono : ∀ a b, a ≤ b → b < n → f a = true → f b = true) :
    ∀ (fuel i j : Nat), i ≤ j → j ≤ n → j - i ≤ fuel →
      (∀ k, k < i → f k = false) →
      (∀ k, j ≤ k → k < n → f k = true) →
      (∀ k, k < searchLoop f fuel i j → f k = false) ∧
        (∀ k, searchLoop f fuel i j ≤ k → k < n → f k = true) ∧
        i ≤ searchLoop f fuel i j ∧ searchLoop f fuel i j ≤ j := by
  intro fuel
  induction fuel with
  | zero =>
      intro i j hij hjn hfuel hlow hhigh
      have hji : i = j := by omega
      subst hji
      exact ⟨hlow, hhigh, Nat.le_refl _, Nat.le_refl _⟩
  | succ fuel ih =>
      intro i j hij hjn hfuel hlow hhigh
      by_cases hlt : i < j
      · have hm : (i + j) / 2 < j := by omega
        have hmi : i ≤ (i + j) / 2 := by omega
        by_cases hfm : f ((i + j) / 2) = true
        · have hres : searchLoop f (fuel + 1) i j = searchLoop f fuel i ((i + j) / 2) := by
            simp [searchLoop, hlt, hfm]
          rw [hres]
          have hnew : ∀ k, (i + j) / 2 ≤ k → k < n → f k = true := by
            intro k hk hkn
            exact hmono _ _ hk hkn hfm
          have := ih i ((i + j) / 2) hmi (by omega) (by omega) hlow hnew
          exact ⟨this.1, this.2.1, this.2.2.1, Nat.le_trans this.2.2.2 (Nat.le_of_lt hm)⟩
        · have hfm' : f ((i + j) / 2) = false := by
            cases h : f ((i + j) / 2)
            · rfl
            · exact absurd h hfm
          have hres : searchLoop f (fuel + 1) i j = searchLoop f fuel ((i + j) / 2 + 1) j := by
            simp [searchLoop, hlt, hfm']
          rw [hres]
          have hnew : ∀ k, k < (i + j) / 2 + 1 → f k = false := by
            intro k hk
            by_cases hki : k < i
            · exact hlow k hki
            · cases h : f k
              · rfl
              · exact absurd (hmono k ((i + j) / 2) (by omega) (by omega) h) (by simp [hfm'])
          have := ih ((i + j) / 2 + 1) j (by omega) hjn (by omega) hnew hhigh
          exact ⟨this.1, this.2.1, by omega, this.2.2.2⟩
      · have hji : i = j := by omega
        subst hji
        have hres : searchLoop f (fuel + 1) i i = i := by
          simp [searchLoop]
        rw [hres]
        exact ⟨hlow, hhigh, Nat.le_refl _, Nat.le_refl _⟩

/-- `sort.Search(n, f)` with a monotone predicate: everything below the
result is false, everything from the result on (within range) is true. -/
theorem sortSearch_spec (f : Nat → Bool) (n : Nat)
    (hmono : ∀ a b, a ≤ b → b < n → f a = true → f b = true) :
    (∀ k, k < sortSearch n f → f k = false) ∧
      (∀ k, sortSearch n f ≤ k → k < n → f k = true) ∧ sortSearch n f ≤ n := by
  have := searchLoop_spec f n hmono n 0 n (Nat.zero_le _) (Nat.le_refl _)
    (by omega) (by omega) (by omega)
  exact ⟨this.1, this.2.1, this.2.2.2⟩

/-- Monotonicity of the search predicate over a value-sorted entry list. -/
theorem entry_pred_mono (r : List HashEntry) (v : Nat)
    (hs : r.Pairwise (fun x y => x.value ≤ y.value)) :
    ∀ a b, a ≤ b → b < r.length →
      decide (v ≤ (r.getD a default).value) = true →
      decide (v ≤ (r.getD b default).value) = true := by
  intro a b hab hb ha
  have ha' : v ≤ (r.getD a default).value := of_decide_eq_true ha
  rcases Nat.eq_or_lt_of_le hab with heq | hlt
  · subst heq
    exact decide_eq_true ha'
  · have hval : (r.getD a default).value ≤ (r.getD b default).value := by
      rw [getD_of_lt r a (by omega), getD_of_lt r b hb]
      exact List.pairwise_iff_getElem.mp hs a b (by omega) hb hlt
    exact decide_eq_true (Nat.le_trans ha' hval)

/-- Monotonicity of the search predicate over a token-sorted node list. -/
theorem rnode_pred_mono {S : Type} [Inhabited S] (l : List (RNode S)) (t : Nat)
    (hs : l.Pairwise (fun x y => x.token ≤ y.token)) :
    ∀ a b, a ≤ b → b < l.length →
      decide (t ≤ (l.getD a default).token) = true →
      decide (t ≤ (l.getD b default).token) = true := by
  intro a b hab hb ha
  have ha' : t ≤ (l.getD a default).token := of_decide_eq_true ha
  rcases Nat.eq_or_lt_of_le hab with heq | hlt
  · subst heq
    exact decide_eq_true ha'
  · have hval : (l.getD a default).token ≤ (l.getD b default).token := by
      rw [getD_of_lt l a (by omega), getD_of_lt l b hb]
      exact List.pairwise_iff_getElem.mp hs a b (by omega) hb hlt
    exact decide_eq_true (Nat.le_trans ha' hval)

/-- C1: For every ring store whose entries are sorted ascending and every
target value `v`: if the store is non-empty, `closest(v)` (and equivalently
`Ring.nearest`) returns the entry at the smallest index whose value is
`≥ v`, or the entry at index 0 when every value is `< v` (wrap-around); if
the store is empty, `closest` returns the empty-ring error. -/
theorem closest_nearest_first_ge {S : Type} [Inhabited S]
    (r : List HashEntry) (v : Nat)
    (hs : r.Pairwise (fun x y => x.value ≤ y.value))
    (rg : Ring S) (t : Nat)
    (hs' : rg.nodes.Pairwise (fun x y => x.token ≤ y.token)) :
    (r = [] → ringClosest r v = Except.error MErr.errEmpty) ∧
    (∀ i, i < r.length → v ≤ (r.getD i default).value →
      ∃ j, j < r.length ∧ v ≤ (r.getD j default).value ∧
        (∀ k, k < j → (r.getD k default).value < v) ∧
        ringClosest r v = Except.ok (r.getD j default).node) ∧
    ((∀ i, i < r.length → (r.getD i default).value < v) → r ≠ [] →
      ringClosest r v = Except.ok (r.getD 0 default).node) ∧
    (∀ i, i < rg.nodes.length → t ≤ (rg.nodes.getD i default).token →
      ∃ j, j < rg.nodes.length ∧ t ≤ (rg.nodes.getD j default).token ∧
        (∀ k, k < j → (rg.nodes.getD k default).token < t) ∧
        rg.nearest t = rg.nodes.getD j default) ∧
    ((∀ i, i < rg.nodes.length → (rg.nodes.getD i default).token < t) →
      rg.nearest t = rg.nodes.getD 0 default) := by
  obtain ⟨hclow, hchigh, hcle⟩ :=
    sortSearch_spec (fun i => decide (v ≤ (r.getD i default).value)) r.length
      (entry_pred_mono r v hs)
  obtain ⟨hnlow, hnhigh, hnle⟩ :=
    sortSearch_spec (fun p => decide (t ≤ (rg.nodes.getD p default).token))
      rg.nodes.length (rnode_pred_mono rg.nodes t hs')
  refine ⟨?_, ?_, ?_, ?_, ?_⟩
  · intro hnil
    simp [ringClosest, hnil]
  · intro i hi hvi
    set p := sortSearch r.length (fun i => decide (v ≤ (r.getD i default).value)) with hp
    have hpi : p ≤ i := by
      by_contra hgt
      have := hclow i (by omega)
      rw [decide_eq_true hvi] at this
      cases this
    have hplen : p < r.length := by omega
    refine ⟨p, hplen, ?_, ?_, ?_⟩
    · exact of_decide_eq_true (hchigh p (Nat.le_refl _) hplen)
    · intro k hk
      have := hclow k hk
      exact Nat.lt_of_not_le (fun hc => by rw [decide_eq_true hc] at this; cases this)
    · have hlen : 0 < r.length := by omega
      simp only [ringClosest, hlen, if_true, ← hp, hplen, if_pos]
  · intro hall hne
    set p := sortSearch r.length (fun i => decide (v ≤ (r.getD i default).value)) with hp
    have hlen : 0 < r.length := List.length_pos.mpr hne
    have hpn : ¬ p < r.length := by
      intro hc
      have := hchigh p (Nat.le_refl _) hc
      have h2 := hall p hc
      rw [decide_eq_true_eq] at this
      omega
    simp only [ringClosest, hlen, if_true, ← hp]
    rw [if_neg hpn]
  · intro i hi hti
    set p := sortSearch rg.nodes.length
      (fun p => decide (t ≤ (rg.nodes.getD p default).token)) with hp
    have hpi : p ≤ i := by
      by_contra hgt
      have := hnlow i (by omega)
      rw [decide_eq_true hti] at this
      cases this
    have hplen : p < rg.nodes.length := by omega
    refine ⟨p, hplen, ?_, ?_, ?_⟩
    · exact of_decide_eq_true (hnhigh p (Nat.le_refl _) hplen)
    · intro k hk
      have := hnlow k hk
      exact Nat.lt_of_not_le (fun hc => by rw [decide_eq_true hc] at this; cases this)
    · simp only [Ring.nearest, ← hp, hplen, if_pos]
  · intro hall
    set p := sortSearch rg.nodes.length
      (fun p => decide (t ≤ (rg.nodes.getD p default).token)) with hp
    have hpn : ¬ p < rg.nodes.length := by
      intro hc
      have := hnhigh p (Nat.le_refl _) hc
      have h2 := hall p hc
      rw [decide_eq_true_eq] at this
      omega
    simp only [Ring.nearest, ← hp]
    rw [if_neg hpn]

/-- Witness for C1: wrap-around at a concrete sorted two-entry store. -/
theorem closest_nearest_first_ge_witness :
    ringClosest [⟨"a", 5⟩, ⟨"b", 9⟩] 100 = Except.ok "a" :=
  (closest_nearest_first_ge (S := String) [⟨"a", 5⟩, ⟨"b", 9⟩] 100 (by decide)
      ⟨⟨1, fun _ => 0, strBytes⟩, [], []⟩ 0 (by decide)).2.2.1
    (by decide) (by decide)

/-- On a non-empty storage, `nearest` returns one of the stored nodes. -/
theorem nearest_mem {S : Type} [Inhabited S] (rg : Ring S) (t : Nat)
    (h : 0 < rg.nodes.length) : rg.nearest t ∈ rg.nodes := by
  simp only [Ring.nearest]
  split
  · exact getD_mem _ _ (by assumption)
  · exact getD_mem _ _ h

/-- On a non-empty ring, `closest` succeeds with one of the stored nodes. -/
theorem closest_mem (r : List HashEntry) (v : Nat) (h : 0 < r.length) :
    ∃ e, e ∈ r ∧ ringClosest r v = Except.ok e.node := by
  simp only [ringClosest]
  rw [if_pos h]
  split
  · exact ⟨_, getD_mem _ _ (by assumption), rfl⟩
  · exact ⟨_, getD_mem _ _ h, rfl⟩

/-- C2: For every input key and every well-formed `Ring` (resp. `Hash`)
state, `Find` (resp. `Get`) returns a service that is a member of the
current service set whenever the set is non-empty, and fails with the
no-services / empty-ring error if and only if the set is empty.  (The model
functions are total, so no lookup panics.) -/
theorem find_get_total {S : Type} [Inhabited S] [DecidableEq S]
    (r : Ring S) (object : List Nat) (hwf : r.wf)
    (h : Hash) (k : List Nat) (hwf' : h.wf) :
    (r.cache.map Prod.fst ≠ [] →
      ∃ s, r.find object = Except.ok s ∧ s ∈ r.cache.map Prod.fst) ∧
    (r.find object = Except.error MErr.errNoServices ↔
      r.cache.map Prod.fst = []) ∧
    (h.nodes ≠ [] → ∃ n, h.get k = Except.ok n ∧ n ∈ h.nodes) ∧
    (h.get k = Except.error MErr.errEmpty ↔ h.nodes = []) := by
  have hcache : r.cache.map Prod.fst = [] ↔ r.cache = [] := List.map_eq_nil_iff
  refine ⟨?_, ?_, ?_, ?_⟩
  · intro hne
    have hnodes : r.nodes ≠ [] := by
      intro hc
      exact hne (hcache.mpr (hwf.2.mpr hc))
    have hlen : 0 < r.nodes.length := List.length_pos.mpr hnodes
    refine ⟨(r.nearest (r.hasher.sum64 object)).service, ?_, ?_⟩
    · simp [Ring.find, hlen]
    · exact hwf.1 _ (nearest_mem r _ hlen)
  · constructor
    · intro herr
      by_contra hne
      have hnodes : r.nodes ≠ [] := by
        intro hc
        exact hne (hcache.mpr (hwf.2.mpr hc))
      have hlen : 0 < r.nodes.length := List.length_pos.mpr hnodes
      simp [Ring.find, hlen] at herr
    · intro hmap
      have hnodes : r.nodes = [] := hwf.2.mp (hcache.mp hmap)
      simp [Ring.find, hnodes]
  · intro hne
    have hring : h.ring ≠ [] := by
      intro hc
      exact hne (hwf'.2.mpr hc)
    have hlen : 0 < h.ring.length := List.length_pos.mpr hring
    obtain ⟨e, hmem, heq⟩ := closest_mem h.ring (h.alg k) hlen
    refine ⟨e.node, ?_, hwf'.1 e hmem⟩
    simp [Hash.get, hlen, heq]
  · constructor
    · intro herr
      by_contra hne
      have hring : h.ring ≠ [] := by
        intro hc
        exact hne (hwf'.2.mpr hc)
      have hlen : 0 < h.ring.length := List.length_pos.mpr hring
      obtain ⟨e, _, heq⟩ := closest_mem h.ring (h.alg k) hlen
      rw [Hash.get, if_pos hlen, heq] at herr
      cases herr
    · intro hnodes
      have hring : h.ring = [] := hwf'.2.mp hnodes
      simp [Hash.get, hring]

/-- Witness for C2: a one-service ring and a one-node hash, both built
through the real pipeline, satisfy the invariant and the error law. -/
theorem find_get_total_witness :
    demoRing.wf ∧ demoHash.wf ∧
      (demoHash.get (strBytes "key") = Except.error MErr.errEmpty ↔
        demoHash.nodes = []) :=
  ⟨by decide, by decide,
    (find_get_total demoRing (strBytes "key") (by decide)
        demoHash (strBytes "key") (by decide)).2.2.2⟩

/-- The `Hash.Add`/`Hash.Rehash` token loop appends one entry per
iteration, hashing `"<decimal-index>=" ++ node bytes` at each running
index. -/
theorem hashTokensLoop_spec (alg : List Nat → Nat) (n : Node) :
    ∀ (fuel : Nat) (a : Assigner) (r : List HashEntry),
      (hashTokensLoop alg a n r fuel).1 =
        r ++ (List.range' a.index fuel).map
          (fun i => ⟨n, alg (decimalBytes i ++ [eqByte] ++ a.node)⟩) := by
  intro fuel
  induction fuel with
  | zero =>
      intro a r
      simp [hashTokensLoop]
  | succ fuel ih =>
      intro a r
      rw [List.range'_succ]
      simp only [hashTokensLoop, Assigner.next, ringAdd]
      rw [ih]
      simp

/-- The `hasher.serviceNodes` loop appends one ring node per iteration,
hashing `"<decimal-increment>=" ++ base` at each increment. -/
theorem serviceNodesLoop_spec {S : Type} (alg : List Nat → Nat) (svc : S)
    (base : List Nat) :
    ∀ (fuel inc : Nat) (acc : List (RNode S)),
      serviceNodesLoop alg svc base inc acc fuel =
        acc ++ (List.range' inc fuel).map
          (fun i => ⟨alg (decimalBytes i ++ [eqByte] ++ base), svc⟩) := by
  intro fuel
  induction fuel with
  | zero =>
      intro inc acc
      simp [serviceNodesLoop]
  | succ fuel ih =>
      intro inc acc
      rw [List.range'_succ]
      simp only [serviceNodesLoop]
      rw [ih]
      simp

/-- Indexing a mapped `range'` from 0. -/
theorem getD_map_range {α : Type} [Inhabited α] (f : Nat → α) (v i : Nat)
    (hi : i < v) : ((List.range' 0 v).map f).getD i default = f i := by
  have hlen : i < ((List.range' 0 v).map f).length := by
    simp [hi]
  rw [getD_of_lt _ _ hlen]
  simp

/-- C4: the token generator produces exactly `v` tokens; the token at index
`i` is the configured algorithm's digest of the decimal ASCII of `i`, the
`'='` byte, then the node's (resp. service's) serialized bytes — for both
the `assigner`-based loop used by `Hash` and `hasher.serviceNodes` used by
the generic `Ring`.  Determinism over repeated invocations is inherent:
both generators are functions of `(algorithm, node, v)` alone. -/
theorem token_generation_spec (alg : List Nat → Nat) (node : Node) (v : Nat)
    (_hv : 1 ≤ v) {S : Type} [Inhabited S] (h : Hasher S) (svc : S)
    (hhv : h.vnodes = v) :
    ((hashAddNode alg v [] node).length = v ∧
      ∀ i, i < v → (hashAddNode alg v [] node).getD i default =
        ⟨node, alg (decimalBytes i ++ [eqByte] ++ strBytes node)⟩) ∧
    ((h.serviceNodes svc).length = v ∧
      ∀ i, i < v → (h.serviceNodes svc).getD i default =
        ⟨h.alg (decimalBytes i ++ [eqByte] ++ h.base svc), svc⟩) := by
  have hassign : hashAddNode alg v [] node =
      (List.range' 0 v).map
        (fun i => (⟨node, alg (decimalBytes i ++ [eqByte] ++ strBytes node)⟩ : HashEntry)) := by
    unfold hashAddNode
    rw [hashTokensLoop_spec alg node v (Assigner.reset node) []]
    simp [Assigner.reset]
  have hservice : h.serviceNodes svc =
      (List.range' 0 v).map
        (fun i => (⟨h.alg (decimalBytes i ++ [eqByte] ++ h.base svc), svc⟩ : RNode S)) := by
    unfold Hasher.serviceNodes
    rw [serviceNodesLoop_spec h.alg svc (h.base svc) h.vnodes 0 [], hhv]
    simp
  refine ⟨⟨?_, ?_⟩, ?_, ?_⟩
  · simp [hassign]
  · intro i hi
    rw [hassign, getD_map_range _ v i hi]
  · simp [hservice]
  · intro i hi
    rw [hservice, getD_map_range _ v i hi]

/-- Witness for C4 at a concrete algorithm, node and vnode count. -/
theorem token_generation_spec_witness :
    (1 ≤ 2) ∧ ((⟨2, sumAlg, strBytes⟩ : Hasher String).vnodes = 2) ∧
      (hashAddNode sumAlg 2 [] "n").getD 1 default =
        ⟨"n", sumAlg (decimalBytes 1 ++ [eqByte] ++ strBytes "n")⟩ :=
  ⟨by decide, by decide,
    (token_generation_spec sumAlg "n" 2 (by decide)
        (⟨2, sumAlg, strBytes⟩ : Hasher String) "s" (by decide)).1.2 1 (by decide)⟩

/-- The `Update` loop counts exactly the update-slice entries that miss
(resp. hit) the current cache. -/
theorem updateFold_counts {S : Type} [DecidableEq S] (current : Ring S) :
    ∀ (services : List S)
      (st : List (S × List (RNode S)) × List (RNode S) × Nat × Nat),
      (services.foldl (updateStep current) st).2.2.1 =
        st.2.2.1 +
          (services.filter (fun svc => (mapGet? current.cache svc).isNone)).length ∧
      (services.foldl (updateStep current) st).2.2.2 =
        st.2.2.2 +
          (services.filter (fun svc => (mapGet? current.cache svc).isSome)).length := by
  intro services
  induction services with
  | nil =>
      intro st
      simp
  | cons svc rest ih =>
      intro st
      rw [List.foldl_cons]
      obtain ⟨ih1, ih2⟩ := ih (updateStep current st svc)
      constructor
      · rw [ih1]
        cases hc : mapGet? current.cache svc with
        | some v =>
            simp [updateStep, hc, List.filter_cons]
        | none =>
            simp [updateStep, hc, List.filter_cons]
            omega
      · rw [ih2]
        cases hc : mapGet? current.cache svc with
        | some v =>
            simp [updateStep, hc, List.filter_cons]
            omega
        | none =>
            simp [updateStep, hc, List.filter_cons]

/-- A cache lookup succeeds exactly for the cached services. -/
theorem mapGet?_isSome_iff {S V : Type} [DecidableEq S]
    (m : List (S × V)) (k : S) :
    (mapGet? m k).isSome = true ↔ k ∈ m.map Prod.fst := by
  simp only [mapGet?, Option.isSome_map']
  rw [List.find?_isSome]
  constructor
  · rintro ⟨e, hmem, heq⟩
    rw [decide_eq_true_eq] at heq
    exact heq ▸ List.mem_map_of_mem Prod.fst hmem
  · intro hmem
    obtain ⟨e, hmem, heq⟩ := List.mem_map.mp hmem
    exact ⟨e, hmem, decide_eq_true heq⟩

/-- C3: `Update(current, services...)` reports an update (and builds a new
ring) if and only if some listed service is absent from the current cache
or the count of reused list entries differs from the cached-service count;
when it reports no update, it returns the current ring itself.  In
particular, an update slice enumerating exactly the currently cached
services yields `(current, false)`. -/
theorem update_flag_iff {S : Type} [DecidableEq S] (current : Ring S)
    (services : List S) :
    ((ringUpdate current services).2 = true ↔
      (∃ svc ∈ services, mapGet? current.cache svc = none) ∨
        (services.filter (fun svc => (mapGet? current.cache svc).isSome)).length ≠
          mapLen current.cache) ∧
    ((ringUpdate current services).2 = false →
      (ringUpdate current services).1 = current) ∧
    (services.Perm (current.cache.map Prod.fst) →
      ringUpdate current services = (current, false)) := by
  obtain ⟨h1, h2⟩ := updateFold_counts current services ([], [], 0, 0)
  have hcond : ((services.foldl (updateStep current) ([], [], 0, 0)).2.2.1 > 0 ∨
      (services.foldl (updateStep current) ([], [], 0, 0)).2.2.2 ≠ mapLen current.cache) ↔
      ((∃ svc ∈ services, mapGet? current.cache svc = none) ∨
        (services.filter (fun svc => (mapGet? current.cache svc).isSome)).length ≠
          mapLen current.cache) := by
    rw [h1, h2]
    simp only [Nat.zero_add]
    constructor
    · rintro (hpos | hne)
      · left
        have : services.filter (fun svc => (mapGet? current.cache svc).isNone) ≠ [] := by
          intro hc
          rw [hc] at hpos
          simp at hpos
        obtain ⟨e, l', hl⟩ := List.exists_cons_of_ne_nil this
        have hmem : e ∈ services.filter (fun svc => (mapGet? current.cache svc).isNone) := by
          rw [hl]; exact List.mem_cons_self e l'
        have := List.mem_filter.mp hmem
        exact ⟨e, this.1, Option.isNone_iff_eq_none.mp (by simpa using this.2)⟩
      · exact Or.inr hne
    · rintro (⟨svc, hmem, hnone⟩ | hne)
      · left
        have : svc ∈ services.filter (fun svc => (mapGet? current.cache svc).isNone) :=
          List.mem_filter.mpr ⟨hmem, by simp [hnone]⟩
        have := List.length_pos.mpr (List.ne_nil_of_mem this)
        omega
      · exact Or.inr hne
  refine ⟨?_, ?_, ?_⟩
  · simp only [ringUpdate]
    split
    · simpa [hcond.symm] using (by assumption)
    · rename_i hneg
      simpa [hcond.symm] using hneg
  · simp only [ringUpdate]
    split
    · intro hc
      cases hc
    · intro hc
      rfl
  · intro hperm
    have hnone : ∀ svc ∈ services, (mapGet? current.cache svc).isNone = false := by
      intro svc hmem
      have : svc ∈ current.cache.map Prod.fst := hperm.mem_iff.mp hmem
      have := (mapGet?_isSome_iff current.cache svc).mpr this
      simp [Option.isNone, Option.isSome] at this ⊢
      cases hc : mapGet? current.cache svc with
      | some v => simp
      | none => rw [hc] at this; simp at this
    have hfilterN : services.filter (fun svc => (mapGet? current.cache svc).isNone) = [] :=
      List.filter_eq_nil_iff.mpr (by
        intro a ha
        simp [hnone a ha])
    have hfilterS : services.filter (fun svc => (mapGet? current.cache svc).isSome) = services :=
      List.filter_eq_self.mpr (by
        intro a ha
        have := hnone a ha
        cases hc : mapGet? current.cache a with
        | some v => simp
        | none => rw [hc] at this; simp at this)
    have hlen : services.length = mapLen current.cache := by
      have := hperm.length_eq
      simpa [mapLen] using this
    simp only [ringUpdate]
    split
    · rename_i hcnd
      exfalso
      rw [h1, h2, hfilterN, hfilterS] at hcnd
      rcases hcnd with hpos | hne
      · simp at hpos
      · exact hne (by simpa using hlen)
    · rfl

/-- Witness for C3: updating with the ring's own (single) service set is a
no-op returning the identical ring and `false`. -/
theorem update_flag_iff_witness :
    (["a"] : List String).Perm (demoRing.cache.map Prod.fst) ∧
      ringUpdate demoRing ["a"] = (demoRing, false) := by
  refine ⟨by decide, (update_flag_iff demoRing ["a"]).2.2 (by decide)⟩

/-- Counterexample to C5 as stated: with a colliding algorithm,
`Update` over an empty ring with the slice `["b", "a"]` produces a generic
`Ring` whose two equal-token nodes sit in the order `"b", "a"` — not in
ascending owner order.  (`nodes.Less` compares tokens only; the tie-break
by owner exists only on the `Hash`'s `hashEntry` ring.) -/
theorem build_sort_tie_counterexample :
    (ringUpdate collideRing0 ["b", "a"]).2 = true ∧
      ¬ ((ringUpdate collideRing0 ["b", "a"]).1.nodes.Pairwise
          (fun x y => x.token < y.token ∨
            (x.token = y.token ∧ nodeLE x.service y.service))) := by
  constructor
  · decide
  · decide

/-- C5 (amended): after `Build`/`Update` the generic ring storage is sorted
ascending by token value (with no guarantee on the order of equal-token
entries), and after `Add`/`Remove`/`Rehash` the `Hash` ring storage is
sorted ascending by `(value, owner)`. -/
theorem sortedness_invariant (S : Type) [DecidableEq S] :
    (∀ b : Builder S, (b.build).1.nodes.Pairwise rnodeLE) ∧
    (∀ (current : Ring S) (services : List S),
      current.nodes.Pairwise rnodeLE →
        ((ringUpdate current services).1.nodes).Pairwise rnodeLE) ∧
    (∀ (h : Hash) (l : List Node),
      h.ring.Pairwise hashEntryLE → ((h.add l).1.ring).Pairwise hashEntryLE) ∧
    (∀ (h : Hash) (l : List Node),
      h.ring.Pairwise hashEntryLE → ((h.remove l).1.ring).Pairwise hashEntryLE) ∧
    (∀ (h : Hash) (l : List Node),
      h.ring.Pairwise hashEntryLE → ((h.rehash l).1.ring).Pairwise hashEntryLE) := by
  refine ⟨?_, ?_, ?_, ?_, ?_⟩
  · intro b
    exact List.sorted_insertionSort rnodeLE _
  · intro current services hs
    simp only [ringUpdate]
    split
    · exact List.sorted_insertionSort rnodeLE _
    · exact hs
  · intro h l hs
    simp only [Hash.add]
    split
    · exact hs
    · exact List.sorted_insertionSort hashEntryLE _
  · intro h l hs
    simp only [Hash.remove]
    split
    · exact hs
    · exact List.sorted_insertionSort hashEntryLE _
  · intro h l hs
    simp only [Hash.rehash]
    split
    · exact hs
    · exact List.sorted_insertionSort hashEntryLE _

/-- Witness for C5 (amended), at a concrete hash with an initially sorted
(empty) ring. -/
theorem sortedness_invariant_witness :
    ((⟨zeroAlg, 1, [], []⟩ : Hash).ring.Pairwise hashEntryLE) ∧
      (((⟨zeroAlg, 1, [], []⟩ : Hash).add ["b", "a"]).1.ring.Pairwise hashEntryLE) :=
  ⟨by decide,
    (sortedness_invariant String).2.2.1 ⟨zeroAlg, 1, [], []⟩ ["b", "a"] (by decide)⟩

/-! ### Lemmas about the in-place element swap -/

theorem set_getD_self {α : Type} [Inhabited α] :
    ∀ (l : List α) (i : Nat), i < l.length → l.set i (l.getD i default) = l
  | [], i, h => absurd h (by simp)
  | _ :: _, 0, _ => rfl
  | x :: t, i + 1, h =>
      congrArg (x :: ·) (set_getD_self t i (Nat.lt_of_succ_lt_succ h))

theorem getD_cons_set_perm {α : Type} [Inhabited α] :
    ∀ (t : List α) (k : Nat) (x : α), k < t.length →
      List.Perm (t.getD k default :: t.set k x) (x :: t)
  | [], k, _, h => absurd h (by simp)
  | y :: t', 0, x, _ => List.Perm.swap x y t'
  | y :: t', k + 1, x, h =>
      ((List.Perm.swap y (t'.getD k default) (t'.set k x)).trans
        (List.Perm.cons y (getD_cons_set_perm t' k x (Nat.lt_of_succ_lt_succ h)))).trans
        (List.Perm.swap x y t')

theorem listSwap_perm {α : Type} [Inhabited α] :
    ∀ (l : List α) (i j : Nat), i ≤ j → j < l.length →
      List.Perm (listSwap l i j) l
  | [], _, _, _, h => absurd h (by simp)
  | _ :: _, _ + 1, 0, hij, _ => absurd hij (by omega)
  | x :: t, 0, 0, _, _ => List.Perm.refl (x :: t)
  | x :: t, 0, k + 1, _, h =>
      getD_cons_set_perm t k x (Nat.lt_of_succ_lt_succ h)
  | x :: t, i + 1, j + 1, hij, h =>
      List.Perm.cons x
        (listSwap_perm t i j (Nat.le_of_succ_le_succ hij) (Nat.lt_of_succ_lt_succ h))

theorem listSwap_length {α : Type} [Inhabited α] (l : List α) (i j : Nat) :
    (listSwap l i j).length = l.length := by
  simp [listSwap]

theorem listSwap_getD_ne {α : Type} [Inhabited α] (l : List α) (i j k : Nat)
    (hki : k ≠ i) (hkj : k ≠ j) :
    (listSwap l i j).getD k default = l.getD k default := by
  simp only [listSwap, List.getD_eq_getElem?_getD]
  rw [List.getElem?_set_ne (show j ≠ k from fun hc => hkj hc.symm),
    List.getElem?_set_ne (show i ≠ k from fun hc => hki hc.symm)]

theorem listSwap_getD_right {α : Type} [Inhabited α] (l : List α) (i j : Nat)
    (hj : j < l.length) :
    (listSwap l i j).getD j default = l.getD i default := by
  simp only [listSwap, List.getD_eq_getElem?_getD]
  rw [List.getElem?_set_self (by simpa using hj)]
  rfl

theorem listSwap_getD_left {α : Type} [Inhabited α] (l : List α) (i j : Nat)
    (hi : i < l.length) (hij : i ≠ j) :
    (listSwap l i j).getD i default = l.getD j default := by
  simp only [listSwap, List.getD_eq_getElem?_getD]
  rw [List.getElem?_set_ne (show j ≠ i from fun hc => hij hc.symm),
    List.getElem?_set_self hi]
  rfl

/-! ### Correctness of the two-pointer partition loop -/

/-- Invariant-carrying characterization of the `NodeSet.Filter` loop: the
result is a permutation of the input of the same length, split at the final
`i` into a member prefix and a non-member suffix. -/
theorem filterLoop_spec (ns : List Node) :
    ∀ (fuel : Nat) (arr : List Node) (i jp : Nat),
      jp - i ≤ fuel → i ≤ jp → jp ≤ arr.length →
      (∀ k, k < i → nsHas ns (arr.getD k default) = true) →
      (∀ k, jp ≤ k → k < arr.length → nsHas ns (arr.getD k default) = false) →
      List.Perm (filterLoop ns fuel arr i jp).1 arr ∧
        (filterLoop ns fuel arr i jp).1.length = arr.length ∧
        i ≤ (filterLoop ns fuel arr i jp).2 ∧
        (filterLoop ns fuel arr i jp).2 ≤ jp ∧
        (∀ k, k < (filterLoop ns fuel arr i jp).2 →
          nsHas ns ((filterLoop ns fuel arr i jp).1.getD k default) = true) ∧
        (∀ k, (filterLoop ns fuel arr i jp).2 ≤ k → k < arr.length →
          nsHas ns ((filterLoop ns fuel arr i jp).1.getD k default) = false) := by
  intro fuel
  induction fuel with
  | zero =>
      intro arr i jp hfuel hij hjlen hlow hhigh
      have : i = jp := by omega
      subst this
      exact ⟨List.Perm.refl _, rfl, Nat.le_refl _, Nat.le_refl _, hlow, hhigh⟩
  | succ fuel ih =>
      intro arr i jp hfuel hij hjlen hlow hhigh
      by_cases hlt : i < jp
      · by_cases hmem : nsHas ns (arr.getD i default) = true
        · have hres : filterLoop ns (fuel + 1) arr i jp = filterLoop ns fuel arr (i + 1) jp := by
            simp only [filterLoop]
            rw [if_pos hlt, if_pos hmem]
          rw [hres]
          have hlow' : ∀ k, k < i + 1 → nsHas ns (arr.getD k default) = true := by
            intro k hk
            rcases Nat.lt_or_ge k i with hki | hki
            · exact hlow k hki
            · have : k = i := by omega
              subst this
              exact hmem
          obtain ⟨p1, p2, p3, p4, p5, p6⟩ :=
            ih arr (i + 1) jp (by omega) (by omega) hjlen hlow' hhigh
          exact ⟨p1, p2, by omega, p4, p5, p6⟩
        · have hmem' : nsHas ns (arr.getD i default) = false := by
            cases h : nsHas ns (arr.getD i default)
            · rfl
            · exact absurd h hmem
          have hres : filterLoop ns (fuel + 1) arr i jp =
              filterLoop ns fuel (listSwap arr i (jp - 1)) i (jp - 1) := by
            simp only [filterLoop]
            rw [if_pos hlt, if_neg hmem]
          rw [hres]
          have hj1 : jp - 1 < arr.length := by omega
          have hij1 : i ≤ jp - 1 := by omega
          have hperm : List.Perm (listSwap arr i (jp - 1)) arr :=
            listSwap_perm arr i (jp - 1) hij1 hj1
          have hlen' : (listSwap arr i (jp - 1)).length = arr.length :=
            listSwap_length arr i (jp - 1)
          have hlow' : ∀ k, k < i →
              nsHas ns ((listSwap arr i (jp - 1)).getD k default) = true := by
            intro k hk
            rw [listSwap_getD_ne arr i (jp - 1) k (by omega) (by omega)]
            exact hlow k hk
          have hhigh' : ∀ k, jp - 1 ≤ k → k < (listSwap arr i (jp - 1)).length →
              nsHas ns ((listSwap arr i (jp - 1)).getD k default) = false := by
            intro k hk hklen
            rw [hlen'] at hklen
            rcases Nat.eq_or_lt_of_le hk with hkj | hkj
            · rw [← hkj, listSwap_getD_right arr i (jp - 1) hj1]
              exact hmem'
            · rw [listSwap_getD_ne arr i (jp - 1) k (by omega) (by omega)]
              exact hhigh k (by omega) hklen
          obtain ⟨p1, p2, p3, p4, p5, p6⟩ :=
            ih (listSwap arr i (jp - 1)) i (jp - 1) (by omega) hij1
              (by omega) hlow' (fun k hk hklen => hhigh' k hk (by omega))
          refine ⟨p1.trans hperm, by rw [p2, hlen'], p3, by omega, p5, ?_⟩
          intro k hk hklen
          exact p6 k hk (by omega)
      · have : i = jp := by omega
        subst this
        have hres : filterLoop ns (fuel + 1) arr i i = (arr, i) := by
          simp [filterLoop]
        rw [hres]
        exact ⟨List.Perm.refl _, rfl, Nat.le_refl _, Nat.le_refl _, hlow, hhigh⟩

/-- Elements of a prefix, by index. -/
theorem mem_take_getD {α : Type} [Inhabited α] (l : List α) (m : Nat) (x : α)
    (hx : x ∈ l.take m) : ∃ k, k < m ∧ k < l.length ∧ l.getD k default = x := by
  obtain ⟨n, hn, heq⟩ := List.mem_iff_getElem.mp hx
  have hnm : n < m := by
    simp [List.length_take] at hn
    omega
  have hnl : n < l.length := by
    simp [List.length_take] at hn
    omega
  refine ⟨n, hnm, hnl, ?_⟩
  rw [getD_of_lt _ _ hnl, ← heq]
  have h1 : (l.take m)[n]? = l[n]? := List.getElem?_take_of_lt hnm
  rw [List.getElem?_eq_getElem hn, List.getElem?_eq_getElem hnl] at h1
  exact (Option.some.inj h1).symm

/-- Elements of a suffix, by index. -/
theorem mem_drop_getD {α : Type} [Inhabited α] (l : List α) (m : Nat) (x : α)
    (hx : x ∈ l.drop m) : ∃ k, m ≤ k ∧ k < l.length ∧ l.getD k default = x := by
  obtain ⟨n, hn, heq⟩ := List.mem_iff_getElem.mp hx
  have hnl : m + n < l.length := by
    simp [List.length_drop] at hn
    omega
  refine ⟨m + n, Nat.le_add_right _ _, hnl, ?_⟩
  rw [getD_of_lt _ _ hnl, ← heq]
  exact (List.getElem_drop l).symm

/-- Counterexample to C8 as stated: `Filter` is not a stable partition.
On the set `{"m"}` and input `["x1", "x2", "m"]` the two non-members come
back in the order `["x2", "x1"]`, not their input order. -/
theorem filter_stability_counterexample :
    nsFilter ["m"] ["x1", "x2", "m"] = (["m", "x2", "x1"], 1) ∧
      ¬ ((nsFilter ["m"] ["x1", "x2", "m"]).1.drop
            (nsFilter ["m"] ["x1", "x2", "m"]).2 =
          (["x1", "x2", "m"] : List Node).filter (fun n => !(nsHas ["m"] n))) := by
  constructor
  · decide
  · decide

/-- C8 (amended): `Filter` rearranges the slice in place into a partition —
the result is a permutation of the input, members of the set occupy the
prefix up to the split point and non-members the suffix — but the relative
order within each part is not preserved. -/
theorem filter_partition (ns arr : List Node) :
    List.Perm (nsFilter ns arr).1 arr ∧
      (nsFilter ns arr).2 ≤ (nsFilter ns arr).1.length ∧
      (∀ x ∈ (nsFilter ns arr).1.take (nsFilter ns arr).2, nsHas ns x = true) ∧
      (∀ x ∈ (nsFilter ns arr).1.drop (nsFilter ns arr).2, nsHas ns x = false) ∧
      (nsFilter ns arr).1.take (nsFilter ns arr).2 ++
          (nsFilter ns arr).1.drop (nsFilter ns arr).2 = (nsFilter ns arr).1 := by
  simp only [nsFilter]
  obtain ⟨p1, p2, p3, p4, p5, p6⟩ :=
    filterLoop_spec ns arr.length arr 0 arr.length (by omega) (by omega)
      (Nat.le_refl _) (by omega) (by omega)
  refine ⟨p1, by omega, ?_, ?_, List.take_append_drop _ _⟩
  · intro x hx
    obtain ⟨k, hkm, hkl, heq⟩ := mem_take_getD _ _ _ hx
    rw [← heq]
    exact p5 k hkm
  · intro x hx
    obtain ⟨k, hkm, hkl, heq⟩ := mem_drop_getD _ _ _ hx
    rw [← heq]
    exact p6 k hkm (by omega)

/-! ### NodeSet membership lemmas -/

theorem nsHas_iff_mem (ns : List Node) (x : Node) :
    nsHas ns x = true ↔ x ∈ ns := by
  simp [nsHas]

theorem nsHas_false_iff (ns : List Node) (x : Node) :
    nsHas ns x = false ↔ x ∉ ns := by
  rw [← nsHas_iff_mem]
  cases nsHas ns x <;> simp

/-- Membership in the `AddAll` fold: the union of the start set and the
inserted nodes. -/
theorem nsAddAll_fold_mem :
    ∀ (l : List Node) (st : List Node × Nat) (x : Node),
      x ∈ (l.foldl
        (fun acc n =>
          let step := nsAdd acc.1 n
          (step.1, acc.2 + (if step.2 then 1 else 0))) st).1 ↔
        (x ∈ st.1 ∨ x ∈ l) := by
  intro l
  induction l with
  | nil =>
      intro st x
      simp
  | cons n rest ih =>
      intro st x
      rw [List.foldl_cons]
      rw [ih]
      simp only [nsAdd]
      by_cases hc : st.1.contains n
      · rw [if_pos hc]
        have hn : n ∈ st.1 := by
          rw [← nsHas_iff_mem]
          exact hc
        constructor
        · rintro (hx | hx)
          · exact Or.inl hx
          · exact Or.inr (List.mem_cons_of_mem n hx)
        · rintro (hx | hx)
          · exact Or.inl hx
          · rcases List.mem_cons.mp hx with heq | hx
            · exact Or.inl (heq ▸ hn)
            · exact Or.inr hx
      · rw [if_neg hc]
        simp only [List.mem_append, List.mem_cons]
        constructor <;> (intro hx; tauto)

theorem nsAddAll_mem (ns l : List Node) (x : Node) :
    x ∈ (nsAddAll ns l).1 ↔ (x ∈ ns ∨ x ∈ l) :=
  nsAddAll_fold_mem l (ns, 0) x

theorem newNodeSet_mem (l : List Node) (x : Node) :
    x ∈ newNodeSet l ↔ x ∈ l := by
  rw [newNodeSet, nsAddAll_mem]
  simp

/-- The `AddAll` fold keeps the set duplicate-free. -/
theorem nsAddAll_fold_nodup :
    ∀ (l : List Node) (st : List Node × Nat), st.1.Nodup →
      (l.foldl
        (fun acc n =>
          let step := nsAdd acc.1 n
          (step.1, acc.2 + (if step.2 then 1 else 0))) st).1.Nodup := by
  intro l
  induction l with
  | nil =>
      intro st hst
      simpa using hst
  | cons n rest ih =>
      intro st hst
      rw [List.foldl_cons]
      apply ih
      simp only [nsAdd]
      by_cases hc : st.1.contains n
      · rw [if_pos hc]
        exact hst
      · rw [if_neg hc]
        have hn : n ∉ st.1 := fun hmem => hc ((nsHas_iff_mem _ _).mpr hmem)
        simp [List.nodup_append, hst, hn]

theorem newNodeSet_nodup (l : List Node) : (newNodeSet l).Nodup :=
  nsAddAll_fold_nodup l ([], 0) List.nodup_nil

/-- Membership in the `RemoveAll` fold over a duplicate-free set: what
remains is the start set minus the removed nodes. -/
theorem nsRemoveAll_fold_mem :
    ∀ (l : List Node) (st : List Node × Nat), st.1.Nodup →
      ∀ x, x ∈ (l.foldl
        (fun acc n =>
          if acc.1.contains n then (acc.1.erase n, acc.2 + 1) else acc) st).1 ↔
        (x ∈ st.1 ∧ x ∉ l) := by
  intro l
  induction l with
  | nil =>
      intro st hst x
      simp
  | cons n rest ih =>
      intro st hst x
      rw [List.foldl_cons]
      by_cases hc : st.1.contains n
      · rw [if_pos hc]
        rw [ih (st.1.erase n, st.2 + 1) (hst.erase n) x]
        simp only [List.Nodup.mem_erase_iff hst, List.mem_cons]
        constructor
        · rintro ⟨⟨hne, hx⟩, hnr⟩
          exact ⟨hx, by tauto⟩
        · rintro ⟨hx, hnr⟩
          refine ⟨⟨?_, hx⟩, ?_⟩ <;> tauto
      · rw [if_neg hc]
        rw [ih st hst x]
        have hn : n ∉ st.1 := fun hmem => hc ((nsHas_iff_mem _ _).mpr hmem)
        simp only [List.mem_cons]
        constructor
        · rintro ⟨hx, hnr⟩
          refine ⟨hx, ?_⟩
          rintro (heq | hmem)
          · exact hn (heq ▸ hx)
          · exact hnr hmem
        · rintro ⟨hx, hnr⟩
          exact ⟨hx, fun hmem => hnr (Or.inr hmem)⟩

theorem nsRemoveAll_mem (ns l : List Node) (hnd : ns.Nodup) (x : Node) :
    x ∈ (nsRemoveAll ns l).1 ↔ (x ∈ ns ∧ x ∉ l) :=
  nsRemoveAll_fold_mem l (ns, 0) hnd x

/-! ### Filter on all-member / all-non-member inputs -/

/-- When every element is a member, the `Filter` loop only advances `i` and
returns the slice untouched. -/
theorem filterLoop_all_mem (ns : List Node) :
    ∀ (fuel : Nat) (arr : List Node) (i jp : Nat),
      jp - i ≤ fuel → i ≤ jp → jp ≤ arr.length →
      (∀ x ∈ arr, nsHas ns x = true) →
      filterLoop ns fuel arr i jp = (arr, jp) := by
  intro fuel
  induction fuel with
  | zero =>
      intro arr i jp hfuel hij hjlen hall
      have : i = jp := by omega
      subst this
      simp [filterLoop]
  | succ fuel ih =>
      intro arr i jp hfuel hij hjlen hall
      by_cases hlt : i < jp
      · have hmem : nsHas ns (arr.getD i default) = true :=
          hall _ (getD_mem arr i (by omega))
        have hres : filterLoop ns (fuel + 1) arr i jp = filterLoop ns fuel arr (i + 1) jp := by
          simp only [filterLoop]
          rw [if_pos hlt, if_pos hmem]
        rw [hres]
        exact ih arr (i + 1) jp (by omega) (by omega) hjlen hall
      · have : i = jp := by omega
        subst this
        simp [filterLoop]

/-- When no element is a member, the `Filter` loop never advances `i` and
the split point comes back as 0. -/
theorem filterLoop_none_mem (ns : List Node) :
    ∀ (fuel : Nat) (arr : List Node) (jp : Nat),
      jp ≤ fuel → jp ≤ arr.length →
      (∀ x ∈ arr, nsHas ns x = false) →
      (filterLoop ns fuel arr 0 jp).2 = 0 := by
  intro fuel
  induction fuel with
  | zero =>
      intro arr jp hfuel hjlen hnone
      have : jp = 0 := by omega
      subst this
      simp [filterLoop]
  | succ fuel ih =>
      intro arr jp hfuel hjlen hnone
      by_cases hlt : 0 < jp
      · have hmem : nsHas ns (arr.getD 0 default) = false :=
          hnone _ (getD_mem arr 0 (by omega))
        have hmem' : ¬ nsHas ns (arr.getD 0 default) = true := by
          rw [hmem]
          simp
        have hres : filterLoop ns (fuel + 1) arr 0 jp =
            filterLoop ns fuel (listSwap arr 0 (jp - 1)) 0 (jp - 1) := by
          simp only [filterLoop]
          rw [if_pos hlt, if_neg hmem']
        rw [hres]
        have hperm : List.Perm (listSwap arr 0 (jp - 1)) arr :=
          listSwap_perm arr 0 (jp - 1) (by omega) (by omega)
        refine ih (listSwap arr 0 (jp - 1)) (jp - 1) (by omega)
          (by rw [listSwap_length]; omega) ?_
        intro x hx
        exact hnone x (hperm.mem_iff.mp hx)
      · have : jp = 0 := by omega
        subst this
        simp [filterLoop]

/-- After `Add`, every node of the (rearranged) input slice is a member. -/
theorem add_members (h : Hash) (l : List Node) :
    ∀ x ∈ (h.add l).2.1, x ∈ (h.add l).1.nodes := by
  obtain ⟨f1, f2, f3, f4, f5⟩ := filter_partition h.nodes l
  by_cases hzero :
      ((nsFilter h.nodes l).1.drop (nsFilter h.nodes l).2).length = 0
  · have heq : Hash.add h l = (h, (nsFilter h.nodes l).1, 0) := by
      simp only [Hash.add]
      rw [if_pos hzero]
    rw [heq]
    intro x hx
    have hdrop : (nsFilter h.nodes l).1.drop (nsFilter h.nodes l).2 = [] :=
      List.length_eq_zero.mp hzero
    have htake : x ∈ (nsFilter h.nodes l).1.take (nsFilter h.nodes l).2 := by
      rw [← f5, hdrop, List.append_nil] at hx
      exact hx
    exact (nsHas_iff_mem _ _).mp (f3 x htake)
  · have heq : Hash.add h l =
        ({ h with
            nodes := (nsAddAll h.nodes
              ((nsFilter h.nodes l).1.drop (nsFilter h.nodes l).2)).1,
            ring := ringSort
              (((nsFilter h.nodes l).1.drop (nsFilter h.nodes l).2).foldl
                (fun r n => hashAddNode h.alg h.vnodes r n) h.ring) },
          (nsFilter h.nodes l).1,
          ((nsFilter h.nodes l).1.drop (nsFilter h.nodes l).2).length) := by
      simp only [Hash.add]
      rw [if_neg hzero]
    rw [heq]
    intro x hx
    rw [← f5] at hx
    rcases List.mem_append.mp hx with htake | hdrop
    · exact (nsAddAll_mem _ _ _).mpr (Or.inl ((nsHas_iff_mem _ _).mp (f3 x htake)))
    · exact (nsAddAll_mem _ _ _).mpr (Or.inr hdrop)

/-- After `Remove`, no node of the (rearranged) input slice is a member. -/
theorem remove_not_members (h : Hash) (l : List Node) (hnd : h.nodes.Nodup) :
    ∀ x ∈ (h.remove l).2.1, x ∉ (h.remove l).1.nodes := by
  obtain ⟨f1, f2, f3, f4, f5⟩ := filter_partition h.nodes l
  by_cases hzero :
      ((nsFilter h.nodes l).1.take (nsFilter h.nodes l).2).length = 0
  · have heq : Hash.remove h l = (h, (nsFilter h.nodes l).1, 0) := by
      simp only [Hash.remove]
      rw [if_pos hzero]
    rw [heq]
    intro x hx
    have htake : (nsFilter h.nodes l).1.take (nsFilter h.nodes l).2 = [] :=
      List.length_eq_zero.mp hzero
    have hdrop : x ∈ (nsFilter h.nodes l).1.drop (nsFilter h.nodes l).2 := by
      rw [← f5, htake, List.nil_append] at hx
      exact hx
    exact (nsHas_false_iff _ _).mp (f4 x hdrop)
  · have heq : Hash.remove h l =
        ({ h with
            nodes := (nsRemoveAll h.nodes
              ((nsFilter h.nodes l).1.take (nsFilter h.nodes l).2)).1,
            ring := ringSort (ringRemoveIf h.ring
              (fun n => nsHas (newNodeSet
                ((nsFilter h.nodes l).1.take (nsFilter h.nodes l).2)) n)) },
          (nsFilter h.nodes l).1,
          ((nsFilter h.nodes l).1.take (nsFilter h.nodes l).2).length) := by
      simp only [Hash.remove]
      rw [if_neg hzero]
    rw [heq]
    intro x hx
    rw [← f5] at hx
    rcases List.mem_append.mp hx with htake | hdrop
    · intro hc
      exact ((nsRemoveAll_mem _ _ hnd _).mp hc).2 htake
    · intro hc
      exact (nsHas_false_iff _ _).mp (f4 x hdrop) ((nsRemoveAll_mem _ _ hnd _).mp hc).1

/-- C6: `Add` and `Remove` are idempotent — immediately repeating `Add`
(resp. `Remove`) with the slice left by the first call returns 0 and leaves
the entire hash state, hence every `Get` result, unchanged. -/
theorem add_remove_idempotent (h : Hash) (l : List Node)
    (hnd : h.nodes.Nodup) :
    (((h.add l).1.add (h.add l).2.1).2.2 = 0 ∧
      ((h.add l).1.add (h.add l).2.1).1 = (h.add l).1 ∧
      (∀ k, (((h.add l).1.add (h.add l).2.1).1.get k = (h.add l).1.get k))) ∧
    (((h.remove l).1.remove (h.remove l).2.1).2.2 = 0 ∧
      ((h.remove l).1.remove (h.remove l).2.1).1 = (h.remove l).1 ∧
      (∀ k, (((h.remove l).1.remove (h.remove l).2.1).1.get k =
        (h.remove l).1.get k))) := by
  constructor
  · have hall0 : ∀ x ∈ (h.add l).2.1, x ∈ (h.add l).1.nodes := add_members h l
    generalize hg : h.add l = r1 at hall0 ⊢
    obtain ⟨h1, arr1, a1⟩ := r1
    simp only at hall0 ⊢
    have hall : ∀ x ∈ arr1, nsHas h1.nodes x = true :=
      fun x hx => (nsHas_iff_mem _ _).mpr (hall0 x hx)
    have hfilter : nsFilter h1.nodes arr1 = (arr1, arr1.length) := by
      unfold nsFilter
      exact filterLoop_all_mem _ _ _ 0 _ (by omega) (by omega) (Nat.le_refl _) hall
    have heq : Hash.add h1 arr1 = (h1, arr1, 0) := by
      simp only [Hash.add]
      rw [hfilter]
      simp [List.drop_length]
    rw [heq]
    exact ⟨rfl, rfl, fun k => rfl⟩
  · have hnone0 : ∀ x ∈ (h.remove l).2.1, x ∉ (h.remove l).1.nodes :=
      remove_not_members h l hnd
    generalize hg : h.remove l = s1 at hnone0 ⊢
    obtain ⟨h1, arr1, a1⟩ := s1
    simp only at hnone0 ⊢
    have hnone : ∀ x ∈ arr1, nsHas h1.nodes x = false :=
      fun x hx => (nsHas_false_iff _ _).mpr (hnone0 x hx)
    have hfilter : (nsFilter h1.nodes arr1).2 = 0 := by
      unfold nsFilter
      exact filterLoop_none_mem _ _ _ _ (Nat.le_refl _) (Nat.le_refl _) hnone
    have heq : Hash.remove h1 arr1 = (h1, (nsFilter h1.nodes arr1).1, 0) := by
      simp only [Hash.remove]
      rw [hfilter]
      simp [List.take_zero]
    rw [heq]
    exact ⟨rfl, rfl, fun k => rfl⟩

/-- Witness for C6 at a concrete duplicate-free hash. -/
theorem add_remove_idempotent_witness :
    demoHash.nodes.Nodup ∧
      ((demoHash.add ["b"]).1.add (demoHash.add ["b"]).2.1).2.2 = 0 :=
  ⟨by decide, (add_remove_idempotent demoHash ["b"] (by decide)).1.1⟩

/-- The two `Has` tests against the target set and against the raw list
agree. -/
theorem nsHas_newNodeSet_eq (l : List Node) (x : Node) :
    nsHas (newNodeSet l) x = l.contains x := by
  show nsHas (newNodeSet l) x = nsHas l x
  by_cases hx : x ∈ l
  · rw [(nsHas_iff_mem _ _).mpr ((newNodeSet_mem l x).mpr hx),
      (nsHas_iff_mem _ _).mpr hx]
  · rw [(nsHas_false_iff _ _).mpr (fun hc => hx ((newNodeSet_mem l x).mp hc)),
      (nsHas_false_iff _ _).mpr hx]

/-- The added-node count of `Rehash` equals the number of distinct listed
nodes that are not yet members. -/
theorem rehash_added_count (h : Hash) (l : List Node) :
    ((newNodeSet l).filter (fun n => !(nsHas h.nodes n))).length =
      (l.filter (fun n => !(nsHas h.nodes n))).toFinset.card := by
  have hnodupF : ((newNodeSet l).filter (fun n => !(nsHas h.nodes n))).Nodup :=
    (newNodeSet_nodup l).filter _
  rw [← List.toFinset_card_of_nodup hnodupF]
  congr 1
  apply Finset.ext
  intro x
  simp only [List.mem_toFinset, List.mem_filter, newNodeSet_mem]

/-- C7: `Rehash(l)` returns `(added, removed)` with `added` the number of
distinct listed nodes that were not members and `removed` the number of
members not in the listed set; afterwards the member set is exactly the
listed set; when both counts are zero the state is unchanged. -/
theorem rehash_spec (h : Hash) (l : List Node) (_hnd : h.nodes.Nodup) :
    ((h.rehash l).2.1 =
      (l.filter (fun n => !(nsHas h.nodes n))).toFinset.card) ∧
    ((h.rehash l).2.2 =
      (h.nodes.filter (fun n => !(l.contains n))).length) ∧
    (∀ n, n ∈ (h.rehash l).1.nodes ↔ n ∈ l) ∧
    (((h.rehash l).2.1 = 0 ∧ (h.rehash l).2.2 = 0) → (h.rehash l).1 = h) := by
  have hremEq : h.nodes.filter (fun n => !(nsHas (newNodeSet l) n)) =
      h.nodes.filter (fun n => !(l.contains n)) := by
    apply List.filter_congr
    intro x _
    rw [nsHas_newNodeSet_eq]
  by_cases hcond :
      (h.nodes.filter (fun n => !(nsHas (newNodeSet l) n))).length = 0 ∧
        ((newNodeSet l).filter (fun n => !(nsHas h.nodes n))).length = 0
  · have heq : h.rehash l = (h, 0, 0) := by
      simp only [Hash.rehash]
      rw [if_pos hcond]
    have hAdd : ∀ x ∈ newNodeSet l, nsHas h.nodes x = true := by
      intro x hx
      have := List.filter_eq_nil_iff.mp (List.length_eq_zero.mp hcond.2) x hx
      cases hb : nsHas h.nodes x
      · rw [hb] at this
        simp at this
      · rfl
    have hRem : ∀ x ∈ h.nodes, nsHas (newNodeSet l) x = true := by
      intro x hx
      have := List.filter_eq_nil_iff.mp (List.length_eq_zero.mp hcond.1) x hx
      cases hb : nsHas (newNodeSet l) x
      · rw [hb] at this
        simp at this
      · rfl
    rw [heq]
    refine ⟨?_, ?_, ?_, fun _ => rfl⟩
    · rw [← rehash_added_count h l]
      exact hcond.2.symm
    · rw [← congrArg List.length hremEq]
      exact hcond.1.symm
    · intro n
      constructor
      · intro hn
        exact (newNodeSet_mem l n).mp
          ((nsHas_iff_mem _ _).mp (hRem n hn))
      · intro hn
        exact (nsHas_iff_mem _ _).mp
          (hAdd n ((newNodeSet_mem l n).mpr hn))
  · refine ⟨?_, ?_, ?_, ?_⟩
    · simp only [Hash.rehash]
      rw [if_neg hcond]
      exact rehash_added_count h l
    · simp only [Hash.rehash]
      rw [if_neg hcond]
      exact congrArg List.length hremEq
    · intro n
      simp only [Hash.rehash]
      rw [if_neg hcond]
      exact newNodeSet_mem l n
    · simp only [Hash.rehash]
      rw [if_neg hcond]
      rintro ⟨hA, hR⟩
      exact absurd ⟨hR, hA⟩ hcond

/-- Witness for C7: rehashing a one-node hash to a fresh node counts one
addition and one removal. -/
theorem rehash_spec_witness :
    demoHash.nodes.Nodup ∧ (demoHash.rehash ["c"]).2.1 =
      ((["c"] : List Node).filter (fun n => !(nsHas demoHash.nodes n))).toFinset.card :=
  ⟨by decide, (rehash_spec demoHash ["c"] (by decide)).1⟩

/-- C9 (code bug evidence): `Add` with a duplicated fresh node appends
`vnodes` tokens per occurrence while the node set gains the node once, so
the documented `Len() * Vnodes() = ring size` relation breaks: starting
from a fresh hash with `vnodes = 1`, `Add(["a.com", "a.com"])` reports 2
added, stores 2 ring entries, yet `Len()` is 1. -/
theorem add_duplicate_breaks_ring_size :
    (dupHash.add ["a.com", "a.com"]).2.2 = 2 ∧
      (dupHash.add ["a.com", "a.com"]).1.ring.length = 2 ∧
      (dupHash.add ["a.com", "a.com"]).1.len = 1 ∧
      (dupHash.add ["a.com", "a.com"]).1.vnodes = 1 ∧
      (dupHash.add ["a.com", "a.com"]).1.ring.length ≠
        (dupHash.add ["a.com", "a.com"]).1.vnodes *
          (dupHash.add ["a.com", "a.com"]).1.len := by
  refine ⟨?_, ?_, ?_, ?_, ?_⟩ <;> decide

/-- C10: `Builder.Build` resets the accumulated service set — the returned
builder holds zero services, and a second `Build` without intervening
`Services` yields a ring with no services whose `Find` fails with the
no-services error on every key. -/
theorem build_resets_services {S : Type} [DecidableEq S] [Inhabited S]
    (b : Builder S) (object : List Nat) :
    ((b.build).2.services = []) ∧
      (((b.build).2.build).1.nodes = []) ∧
      (((b.build).2.build).1.cache = []) ∧
      (((b.build).2.build).1.find object = Except.error MErr.errNoServices) := by
  refine ⟨rfl, rfl, rfl, ?_⟩
  simp [Builder.build, Ring.find, nodesSort]

end Medley
